import Mathlib

set_option maxHeartbeats 1000000

/- Shallow embedding of the meal-suggestion app: the ingredient normalizer,
   the per-category recipe matcher, and the request flow around them.
   The matcher sorts scored candidates with the JavaScript Array sort, which
   is required to be stable; it is modelled here by a stable insertion sort,
   of which only the first element is observed. -/

/-- Recipe row as stored in the recipes table. -/
structure Recipe where
  id : String
  name : String
  genre : String
  category : String
  ingredients : List String
  steps : String
  created_at : String
  deriving DecidableEq

/-- Meal plan with one optional recipe per course slot. -/
structure MealPlan where
  mainDish : Option Recipe
  sideDish : Option Recipe
  soup : Option Recipe
  deriving DecidableEq

/-- Boolean test that the first character list occurs at the head of the second. -/
def startsWithChars : List Char → List Char → Bool
  | [], _ => true
  | _ :: _, [] => false
  | p :: ps, c :: s => p == c && startsWithChars ps s

/-- Boolean test that the pattern occurs contiguously inside the second list. -/
def hasSubChars (pat : List Char) : List Char → Bool
  | [] => pat.isEmpty
  | c :: s => startsWithChars pat (c :: s) || hasSubChars pat s

/-- Models the JavaScript String includes test used in findBestMatch: the
second string occurs contiguously inside the first, at code-point granularity. -/
def includes (s sub : String) : Bool := hasSubChars sub.data s.data

/-- Models the JavaScript toLowerCase call: every character is lower-cased
independently; characters without a lower-case form are unchanged. -/
def toLowerCase (s : String) : String := String.mk (s.data.map Char.toLower)

/-- Match score of one recipe against the normalized ingredient list, exactly as
computed inside findBestMatch: the number of ingredient entries of the recipe
that contain at least one query token as a substring, the entry being
lower-cased before the containment test. -/
def matchScore (ingredientList : List String) (recipe : Recipe) : Nat :=
  (recipe.ingredients.filter (fun ing =>
    ingredientList.any (fun userIng => includes (toLowerCase ing) userIng))).length

/-- Inserts an element into a list sorted by descending score, placing it before
the first element of smaller or equal score; with sortByScoreDesc this models
the stable JavaScript Array sort with comparator on scores, descending. -/
def insertByScoreDesc (x : Recipe × Nat) : List (Recipe × Nat) → List (Recipe × Nat)
  | [] => [x]
  | y :: ys => if y.2 ≤ x.2 then x :: y :: ys else y :: insertByScoreDesc x ys

/-- Stable sort by descending score, modelling the scored.sort call. -/
def sortByScoreDesc : List (Recipe × Nat) → List (Recipe × Nat)
  | [] => []
  | x :: xs => insertByScoreDesc x (sortByScoreDesc xs)

/-- Per-category best match: filter the pool to the category, score every
candidate, sort by descending score, and return the first recipe if any. -/
def findBestMatch (recipes : List Recipe) (ingredientList : List String)
    (category : String) : Option Recipe :=
  let categoryRecipes := recipes.filter (fun r => r.category == category)
  let scored := categoryRecipes.map (fun recipe => (recipe, matchScore ingredientList recipe))
  let sorted := sortByScoreDesc scored
  (sorted.head?).map (fun p => p.1)

/-- The meal plan assembled by suggestMeal: one findBestMatch call per slot. -/
def selectMealPlan (recipes : List Recipe) (ingredientList : List String) : MealPlan :=
  { mainDish := findBestMatch recipes ingredientList "主菜"
    sideDish := findBestMatch recipes ingredientList "副菜"
    soup := findBestMatch recipes ingredientList "汁物" }

/-- Models the JavaScript split on a comma: the pieces of the character list
between occurrences of the comma, in order; splitting the empty text gives one
empty piece. -/
def splitOnComma : List Char → List (List Char)
  | [] => [[]]
  | c :: s =>
    if c = ',' then [] :: splitOnComma s else
      match splitOnComma s with
      | [] => [[c]]
      | t :: ts => (c :: t) :: ts

/-- Models the JavaScript trim call: removes leading and trailing whitespace
characters. -/
def trimChars (s : List Char) : List Char :=
  ((s.dropWhile Char.isWhitespace).reverse.dropWhile Char.isWhitespace).reverse

/-- Ingredient normalization performed at the top of suggestMeal: split the raw
text on commas, trim and lower-case each piece, drop the empty pieces. -/
def normalizeIngredients (raw : String) : List String :=
  ((splitOnComma raw.data).map (fun i => toLowerCase (String.mk (trimChars i)))).filter
    (fun i => i.length > 0)

/-- Outcome of one suggestMeal request: a validation error before the store
fetch, a no-recipes error after it, or a computed meal plan. -/
inductive SuggestResult where
  | emptyQueryError : String → SuggestResult
  | emptyPoolError : String → SuggestResult
  | plan : MealPlan → SuggestResult
  deriving DecidableEq

/-- Control flow of suggestMeal, parameterized over the store fetch and over
the matcher so that non-invocation of either can be stated as independence
from the parameter. -/
def suggestMealWith (matcher : List Recipe → List String → MealPlan)
    (fetch : String → List Recipe) (genre raw : String) : SuggestResult :=
  let ingredientList := normalizeIngredients raw
  if ingredientList.length == 0 then
    SuggestResult.emptyQueryError "食材を入力してください"
  else
    let recipes := fetch genre
    if recipes.length == 0 then
      SuggestResult.emptyPoolError "該当するレシピが見つかりませんでした"
    else
      SuggestResult.plan (matcher recipes ingredientList)

/-- The suggestMeal handler itself, using the real matcher. -/
def suggestMeal (fetch : String → List Recipe) (genre raw : String) : SuggestResult :=
  suggestMealWith selectMealPlan fetch genre raw

/-- Earliest entry of a scored list whose score is maximal; proof-side
characterization of the head of the stable descending sort. -/
def firstMaxByScore : List (Recipe × Nat) → Option (Recipe × Nat)
  | [] => none
  | x :: xs =>
    match firstMaxByScore xs with
    | none => some x
    | some y => some (if y.2 ≤ x.2 then x else y)

/-- Prefix test characterization: startsWithChars holds exactly when the second
list extends the first. -/
theorem startsWithChars_iff (p : List Char) : ∀ s : List Char,
    (startsWithChars p s = true ↔ ∃ t, p ++ t = s) := by
  induction p with
  | nil => intro s; simp [startsWithChars]
  | cons a ps ih =>
    intro s
    cases s with
    | nil =>
      simp [startsWithChars]
    | cons c cs =>
      simp only [startsWithChars, Bool.and_eq_true, beq_iff_eq, ih,
        List.cons_append, List.cons.injEq]
      constructor
      · rintro ⟨rfl, t, rfl⟩
        exact ⟨t, rfl, rfl⟩
      · rintro ⟨t, rfl, rfl⟩
        exact ⟨rfl, t, rfl⟩

/-- Substring test characterization: hasSubChars holds exactly when the pattern
occurs contiguously inside the list. -/
theorem hasSubChars_iff (p : List Char) : ∀ s : List Char,
    (hasSubChars p s = true ↔ ∃ u v, u ++ p ++ v = s) := by
  intro s
  induction s with
  | nil =>
    simp only [hasSubChars, List.isEmpty_iff]
    constructor
    · rintro rfl
      exact ⟨[], [], rfl⟩
    · rintro ⟨u, v, huv⟩
      have := List.append_eq_nil.mp huv
      exact (List.append_eq_nil.mp this.1).2
  | cons c cs ih =>
    simp only [hasSubChars, Bool.or_eq_true, ih, startsWithChars_iff]
    constructor
    · rintro (⟨t, ht⟩ | ⟨u, v, huv⟩)
      · exact ⟨[], t, by simpa using ht⟩
      · exact ⟨c :: u, v, by simp [huv]⟩
    · rintro ⟨u, v, huv⟩
      cases u with
      | nil => exact Or.inl ⟨v, by simpa using huv⟩
      | cons a us =>
        simp only [List.cons_append, List.cons.injEq] at huv
        exact Or.inr ⟨us, v, huv.2⟩

/-- Includes characterization at the level of character data. -/
theorem includes_iff (s sub : String) :
    includes s sub = true ↔ ∃ u v, u ++ sub.data ++ v = s.data :=
  hasSubChars_iff sub.data s.data

/-- Head of an insertion into a nonempty list: the inserted element wins when
its score is at least that of the old head, otherwise the old head stays. -/
theorem head_insertByScoreDesc (x y : Recipe × Nat) (ys : List (Recipe × Nat)) :
    (insertByScoreDesc x (y :: ys)).head? = some (if y.2 ≤ x.2 then x else y) := by
  by_cases h : y.2 ≤ x.2 <;> simp [insertByScoreDesc, h]

/-- The head of the stable descending sort is the earliest maximal entry. -/
theorem head_sortByScoreDesc (l : List (Recipe × Nat)) :
    (sortByScoreDesc l).head? = firstMaxByScore l := by
  induction l with
  | nil => rfl
  | cons x xs ih =>
    show (insertByScoreDesc x (sortByScoreDesc xs)).head? = _
    cases h : sortByScoreDesc xs with
    | nil =>
      rw [h] at ih
      simp only [List.head?] at ih
      simp only [firstMaxByScore, ← ih]
      rfl
    | cons y ys =>
      rw [h] at ih
      simp only [List.head?] at ih
      simp only [firstMaxByScore, ← ih]
      exact head_insertByScoreDesc x y ys

/-- The earliest maximum is absent exactly on the empty list. -/
theorem firstMaxByScore_eq_none (l : List (Recipe × Nat)) :
    firstMaxByScore l = none ↔ l = [] := by
  cases l with
  | nil => simp [firstMaxByScore]
  | cons x xs =>
    simp only [firstMaxByScore]
    cases firstMaxByScore xs <;> simp

/-- The earliest maximum is an entry of the list. -/
theorem firstMaxByScore_mem (l : List (Recipe × Nat)) (m : Recipe × Nat)
    (h : firstMaxByScore l = some m) : m ∈ l := by
  induction l generalizing m with
  | nil => simp [firstMaxByScore] at h
  | cons x xs ih =>
    simp only [firstMaxByScore] at h
    cases hx : firstMaxByScore xs with
    | none =>
      rw [hx] at h
      simp only [Option.some.injEq] at h
      simp [← h]
    | some y =>
      rw [hx] at h
      simp only [Option.some.injEq] at h
      by_cases hc : y.2 ≤ x.2
      · rw [if_pos hc] at h
        simp [← h]
      · rw [if_neg hc] at h
        exact List.mem_cons_of_mem x (h ▸ ih y hx)

/-- Every entry of the list scores at most the earliest maximum. -/
theorem firstMaxByScore_le (l : List (Recipe × Nat)) (m : Recipe × Nat)
    (h : firstMaxByScore l = some m) : ∀ p ∈ l, p.2 ≤ m.2 := by
  induction l generalizing m with
  | nil => simp
  | cons x xs ih =>
    intro p hp
    simp only [firstMaxByScore] at h
    cases hx : firstMaxByScore xs with
    | none =>
      rw [hx] at h
      simp only [Option.some.injEq] at h
      have hnil : xs = [] := (firstMaxByScore_eq_none xs).mp hx
      subst hnil
      rcases List.mem_singleton.mp hp with rfl
      exact h ▸ Nat.le_refl _
    | some y =>
      rw [hx] at h
      simp only [Option.some.injEq] at h
      have hy := ih y hx
      rcases List.mem_cons.mp hp with rfl | hmem
      · by_cases hc : y.2 ≤ p.2
        · rw [if_pos hc] at h
          exact h ▸ Nat.le_refl _
        · rw [if_neg hc] at h
          exact h ▸ Nat.le_of_lt (Nat.lt_of_not_le hc)
      · by_cases hc : y.2 ≤ x.2
        · rw [if_pos hc] at h
          exact h ▸ Nat.le_trans (hy p hmem) hc
        · rw [if_neg hc] at h
          exact h ▸ hy p hmem

/-- When position i carries a maximal score and every earlier position carries a
strictly smaller one, the earliest maximum is exactly the entry at i. -/
theorem firstMaxByScore_first (l : List (Recipe × Nat)) (i : Nat) (hi : i < l.length)
    (hmax : ∀ p ∈ l, p.2 ≤ (l.get ⟨i, hi⟩).2)
    (hfirst : ∀ j, (hj : j < l.length) → j < i → (l.get ⟨j, hj⟩).2 < (l.get ⟨i, hi⟩).2) :
    firstMaxByScore l = some (l.get ⟨i, hi⟩) := by
  induction l generalizing i with
  | nil => simp at hi
  | cons x xs ih =>
    cases i with
    | zero =>
      simp only [List.get_eq_getElem, List.getElem_cons_zero] at hmax ⊢
      simp only [firstMaxByScore]
      cases hx : firstMaxByScore xs with
      | none => rfl
      | some y =>
        have hymem : y ∈ xs := firstMaxByScore_mem xs y hx
        have hy : y.2 ≤ x.2 := hmax y (List.mem_cons_of_mem x hymem)
        simp [hy]
    | succ n =>
      have hn : n < xs.length := by simpa using hi
      have hget : (x :: xs).get ⟨n + 1, hi⟩ = xs.get ⟨n, hn⟩ := rfl
      rw [hget] at hmax hfirst ⊢
      have hmax2 : ∀ p ∈ xs, p.2 ≤ (xs.get ⟨n, hn⟩).2 := fun p hp =>
        hmax p (List.mem_cons_of_mem x hp)
      have hfirst2 : ∀ j, (hj : j < xs.length) → j < n →
          (xs.get ⟨j, hj⟩).2 < (xs.get ⟨n, hn⟩).2 := by
        intro j hj hjn
        have hj1 : j + 1 < (x :: xs).length := by simpa using Nat.succ_lt_succ hj
        have := hfirst (j + 1) hj1 (Nat.succ_lt_succ hjn)
        simpa using this
      have hx0 : x.2 < (xs.get ⟨n, hn⟩).2 := by
        have h0 : 0 < (x :: xs).length := Nat.succ_pos _
        have := hfirst 0 h0 (Nat.succ_pos n)
        simpa using this
      simp only [firstMaxByScore]
      rw [ih n hn hmax2 hfirst2]
      simp only [List.get_eq_getElem] at hx0
      simp [Nat.not_le.mpr hx0]

/-- The best match for a category is the first entry of maximal score among the
recipes of that category, paired with its score by the scoring map. -/
theorem findBestMatch_eq (pool : List Recipe) (q : List String) (c : String) :
    findBestMatch pool q c =
      (firstMaxByScore ((pool.filter (fun r => r.category == c)).map
        (fun r => (r, matchScore q r)))).map (fun p => p.1) := by
  simp only [findBestMatch]
  rw [head_sortByScoreDesc]

/-- A selected best match belongs to the pool and carries the requested
category. -/
theorem findBestMatch_sound (pool : List Recipe) (q : List String) (c : String)
    (r : Recipe) (h : findBestMatch pool q c = some r) :
    r ∈ pool ∧ r.category = c := by
  rw [findBestMatch_eq] at h
  rcases Option.map_eq_some'.mp h with ⟨m, hm, hr⟩
  have hmem := firstMaxByScore_mem _ m hm
  rcases List.mem_map.mp hmem with ⟨r0, hr0, hval⟩
  have hr0f := List.mem_filter.mp hr0
  have : r0 = r := by rw [← hr]; rw [← hval]
  subst this
  exact ⟨hr0f.1, by simpa using hr0f.2⟩

/-- A selected best match has a score at least that of every pool recipe of the
requested category. -/
theorem findBestMatch_score_max (pool : List Recipe) (q : List String) (c : String)
    (r : Recipe) (h : findBestMatch pool q c = some r) :
    ∀ r2 ∈ pool, r2.category = c → matchScore q r2 ≤ matchScore q r := by
  intro r2 hr2 hc2
  rw [findBestMatch_eq] at h
  rcases Option.map_eq_some'.mp h with ⟨m, hm, hr⟩
  have hmem := firstMaxByScore_mem _ m hm
  rcases List.mem_map.mp hmem with ⟨r0, _, hval⟩
  have hscore : m.2 = matchScore q m.1 := by rw [← hval]
  have hin : (r2, matchScore q r2) ∈ (pool.filter (fun r3 => r3.category == c)).map
      (fun r3 => (r3, matchScore q r3)) :=
    List.mem_map.mpr ⟨r2, List.mem_filter.mpr ⟨hr2, by simpa using hc2⟩, rfl⟩
  have := firstMaxByScore_le _ m hm (r2, matchScore q r2) hin
  simpa [hscore, hr] using this

/-- The best match is absent exactly when no pool recipe has the category. -/
theorem findBestMatch_eq_none_iff (pool : List Recipe) (q : List String) (c : String) :
    findBestMatch pool q c = none ↔ ∀ r ∈ pool, r.category ≠ c := by
  rw [findBestMatch_eq]
  rw [Option.map_eq_none']
  rw [firstMaxByScore_eq_none]
  simp [List.filter_eq_nil_iff]

/-- Sample recipe used to witness the matcher theorems on concrete inputs. -/
def sampleMain1 : Recipe :=
  ⟨"1", "pork dish", "和食", "主菜", ["豚肉", "玉ねぎ"], "炒める", "2024-01-01"⟩

/-- Second sample main dish, sharing one query match with the first. -/
def sampleMain2 : Recipe :=
  ⟨"2", "chicken dish", "和食", "主菜", ["鶏肉", "じゃがいも"], "煮る", "2024-01-02"⟩

/-- Sample soup recipe. -/
def sampleSoup : Recipe :=
  ⟨"3", "miso soup", "和食", "汁物", ["味噌", "豆腐"], "溶く", "2024-01-03"⟩

/-- Contiguous occurrence of a pattern is decidable through hasSubChars. -/
instance (p s : List Char) : Decidable (∃ u v, u ++ p ++ v = s) :=
  decidable_of_iff (hasSubChars p s = true) (hasSubChars_iff p s)

/-- C1: for every recipe and normalized query token list, the match score is
the number of entries of the ingredients sequence for which at least one query
token occurs as a substring of the lower-cased entry, so each entry contributes
at most one to the score and the score never exceeds the number of entries. -/
theorem C1_matchScore_counts_entries (q : List String) (r : Recipe) :
    matchScore q r = r.ingredients.countP (fun ing => decide (∃ t ∈ q,
        ∃ u v, u ++ t.data ++ v = (toLowerCase ing).data)) ∧
    matchScore q r ≤ r.ingredients.length := by
  constructor
  · rw [matchScore, ← List.countP_eq_length_filter]
    apply List.countP_congr
    intro ing _
    simp only [List.any_eq_true, decide_eq_true_eq, includes_iff]
  · rw [matchScore]
    exact List.length_filter_le _ _

/-- Scores agree for any two queries holding the same tokens. -/
theorem matchScore_congr_mem (q q2 : List String) (r : Recipe)
    (h : ∀ t, t ∈ q ↔ t ∈ q2) : matchScore q r = matchScore q2 r := by
  unfold matchScore
  congr 1
  apply List.filter_congr
  intro ing _
  apply Bool.eq_iff_iff.mpr
  simp only [List.any_eq_true]
  constructor
  · rintro ⟨t, ht, hf⟩
    exact ⟨t, (h t).mp ht, hf⟩
  · rintro ⟨t, ht, hf⟩
    exact ⟨t, (h t).mpr ht, hf⟩

/-- Best-match selection agrees for any two queries holding the same tokens. -/
theorem findBestMatch_congr_query (pool : List Recipe) (q q2 : List String)
    (c : String) (h : ∀ t, t ∈ q ↔ t ∈ q2) :
    findBestMatch pool q c = findBestMatch pool q2 c := by
  simp only [findBestMatch]
  have hmap : (pool.filter (fun r => r.category == c)).map
      (fun r => (r, matchScore q r)) =
      (pool.filter (fun r => r.category == c)).map (fun r => (r, matchScore q2 r)) :=
    List.map_congr_left fun r _ => by rw [matchScore_congr_mem q q2 r h]
  rw [hmap]

/-- C8: duplicate query tokens do not change the outcome; the plan computed
from the deduplicated token list equals the plan computed from the full list. -/
theorem C8_dedup_tokens_same_plan (pool : List Recipe) (q : List String) :
    selectMealPlan pool q.dedup = selectMealPlan pool q := by
  have h : ∀ t, t ∈ q.dedup ↔ t ∈ q := fun t => List.mem_dedup
  unfold selectMealPlan
  rw [findBestMatch_congr_query pool q.dedup q "主菜" h,
    findBestMatch_congr_query pool q.dedup q "副菜" h,
    findBestMatch_congr_query pool q.dedup q "汁物" h]

/-- C10: a query with at least the same tokens gives at least the same score. -/
theorem C10_matchScore_monotone (r : Recipe) (q q2 : List String)
    (hsub : ∀ t ∈ q, t ∈ q2) : matchScore q r ≤ matchScore q2 r := by
  unfold matchScore
  rw [← List.countP_eq_length_filter, ← List.countP_eq_length_filter]
  apply List.countP_mono_left
  intro ing _ hany
  simp only [List.any_eq_true] at hany ⊢
  rcases hany with ⟨t, ht, hf⟩
  exact ⟨t, hsub t ht, hf⟩

/-- Witness for C10 at a concrete recipe and concrete token lists. -/
theorem C10_matchScore_monotone_witness :
    matchScore ["豚肉"] sampleMain1 ≤ matchScore ["豚肉", "玉ねぎ"] sampleMain1 :=
  C10_matchScore_monotone sampleMain1 ["豚肉"] ["豚肉", "玉ねぎ"] (by decide)

/-- C2: for every pool and non-empty query, a recipe assigned to a slot scores
at least as high as every pool recipe carrying that slot's category. -/
theorem C2_selected_score_maximal (pool : List Recipe) (q : List String)
    (hq : q ≠ []) :
    (∀ r, (selectMealPlan pool q).mainDish = some r →
      ∀ r2 ∈ pool, r2.category = "主菜" → matchScore q r2 ≤ matchScore q r) ∧
    (∀ r, (selectMealPlan pool q).sideDish = some r →
      ∀ r2 ∈ pool, r2.category = "副菜" → matchScore q r2 ≤ matchScore q r) ∧
    (∀ r, (selectMealPlan pool q).soup = some r →
      ∀ r2 ∈ pool, r2.category = "汁物" → matchScore q r2 ≤ matchScore q r) :=
  ⟨fun r h => findBestMatch_score_max pool q "主菜" r h,
   fun r h => findBestMatch_score_max pool q "副菜" r h,
   fun r h => findBestMatch_score_max pool q "汁物" r h⟩

/-- Witness for C2 on a concrete pool where the first main dish wins. -/
theorem C2_selected_score_maximal_witness :
    matchScore ["豚肉"] sampleMain2 ≤ matchScore ["豚肉"] sampleMain1 :=
  (C2_selected_score_maximal [sampleMain1, sampleMain2] ["豚肉"] (by decide)).1
    sampleMain1 (by decide) sampleMain2 (by decide) (by decide)

/-- C3: when recipes of a category tie for the maximal score, the earliest in
pool order is selected: if position i of the category-filtered pool scores at
least every candidate and strictly above every earlier candidate, the slot
receives exactly the recipe at position i. -/
theorem C3_tiebreak_first_in_pool (pool : List Recipe) (q : List String)
    (c : String) (hq : q ≠ []) (i : Nat)
    (hi : i < (pool.filter (fun r => r.category == c)).length)
    (hmax : ∀ r2 ∈ pool.filter (fun r => r.category == c),
      matchScore q r2 ≤
        matchScore q ((pool.filter (fun r => r.category == c)).get ⟨i, hi⟩))
    (hfirst : ∀ j, (hj : j < (pool.filter (fun r => r.category == c)).length) →
      j < i →
      matchScore q ((pool.filter (fun r => r.category == c)).get ⟨j, hj⟩) <
        matchScore q ((pool.filter (fun r => r.category == c)).get ⟨i, hi⟩)) :
    findBestMatch pool q c =
      some ((pool.filter (fun r => r.category == c)).get ⟨i, hi⟩) := by
  rw [findBestMatch_eq]
  set cs := pool.filter (fun r => r.category == c) with hcs
  set f : Recipe → Recipe × Nat := fun r => (r, matchScore q r) with hf
  have hi2 : i < (cs.map f).length := by simpa using hi
  have hgeti : (cs.map f).get ⟨i, hi2⟩ = f (cs.get ⟨i, hi⟩) := by
    simp [hf]
  have hmax2 : ∀ p ∈ cs.map f, p.2 ≤ ((cs.map f).get ⟨i, hi2⟩).2 := by
    intro p hp
    rcases List.mem_map.mp hp with ⟨r0, hr0, rfl⟩
    rw [hgeti]
    exact hmax r0 hr0
  have hfirst2 : ∀ j, (hj : j < (cs.map f).length) → j < i →
      ((cs.map f).get ⟨j, hj⟩).2 < ((cs.map f).get ⟨i, hi2⟩).2 := by
    intro j hj hji
    have hj2 : j < cs.length := by simpa using hj
    have hgj : (cs.map f).get ⟨j, hj⟩ = f (cs.get ⟨j, hj2⟩) := by
      simp [hf]
    rw [hgj, hgeti]
    exact hfirst j hj2 hji
  rw [firstMaxByScore_first (cs.map f) i hi2 hmax2 hfirst2]
  rw [hgeti]
  rfl

/-- Witness for C3: two main dishes tie at score one and the first is chosen. -/
theorem C3_tiebreak_first_in_pool_witness :
    findBestMatch [sampleMain1, sampleMain2] ["豚肉", "じゃがいも"] "主菜" =
      some sampleMain1 := by
  have h := C3_tiebreak_first_in_pool [sampleMain1, sampleMain2]
    ["豚肉", "じゃがいも"] "主菜" (by decide) 0 (by decide) (by decide) (by decide)
  exact h.trans (by decide)

/-- C4: a slot of the returned plan is the absent marker exactly when no pool
recipe carries that slot's category; with candidates present one is always
selected even at score zero, and an all-absent plan is an ordinary value. -/
theorem C4_slot_absent_iff (pool : List Recipe) (q : List String) (hq : q ≠ []) :
    ((selectMealPlan pool q).mainDish = none ↔ ∀ r ∈ pool, r.category ≠ "主菜") ∧
    ((selectMealPlan pool q).sideDish = none ↔ ∀ r ∈ pool, r.category ≠ "副菜") ∧
    ((selectMealPlan pool q).soup = none ↔ ∀ r ∈ pool, r.category ≠ "汁物") :=
  ⟨findBestMatch_eq_none_iff pool q "主菜", findBestMatch_eq_none_iff pool q "副菜",
    findBestMatch_eq_none_iff pool q "汁物"⟩

/-- Witness for C4: with no soup recipe in the pool the soup slot is absent. -/
theorem C4_slot_absent_iff_witness :
    (selectMealPlan [sampleMain1, sampleMain2] ["キャベツ"]).soup = none :=
  ((C4_slot_absent_iff [sampleMain1, sampleMain2] ["キャベツ"] (by decide)).2.2).mpr
    (by decide)

/-- C9: every non-absent slot references a pool recipe whose category string is
exactly the slot's fixed label, so recipes of other categories are never
selected for the slot. -/
theorem C9_slot_sound (pool : List Recipe) (q : List String) (hq : q ≠ []) :
    (∀ r, (selectMealPlan pool q).mainDish = some r →
      r ∈ pool ∧ r.category = "主菜") ∧
    (∀ r, (selectMealPlan pool q).sideDish = some r →
      r ∈ pool ∧ r.category = "副菜") ∧
    (∀ r, (selectMealPlan pool q).soup = some r →
      r ∈ pool ∧ r.category = "汁物") :=
  ⟨fun r h => findBestMatch_sound pool q "主菜" r h,
   fun r h => findBestMatch_sound pool q "副菜" r h,
   fun r h => findBestMatch_sound pool q "汁物" r h⟩

/-- Witness for C9 on a concrete pool whose soup slot selects the soup. -/
theorem C9_slot_sound_witness :
    sampleSoup ∈ [sampleMain1, sampleSoup] ∧ sampleSoup.category = "汁物" :=
  (C9_slot_sound [sampleMain1, sampleSoup] ["味噌"] (by decide)).2.2
    sampleSoup (by decide)

/-- C5: normalization splits the raw input on commas, trims surrounding
whitespace from each piece, lower-cases it, and drops pieces that are empty
after trimming; the tokens of the concrete input form exactly the set holding
豚肉 and onion. -/
theorem C5_normalize_spec :
    (∀ raw s, s ∈ normalizeIngredients raw ↔
      ∃ piece ∈ splitOnComma raw.data,
        s = toLowerCase (String.mk (trimChars piece)) ∧ 0 < s.length) ∧
    (∀ s, s ∈ normalizeIngredients " 豚肉 , ,ONION " ↔ s = "豚肉" ∨ s = "onion") := by
  constructor
  · intro raw s
    simp only [normalizeIngredients, List.mem_filter, List.mem_map]
    constructor
    · rintro ⟨⟨piece, hmem, rfl⟩, hlen⟩
      exact ⟨piece, hmem, rfl, by simpa using hlen⟩
    · rintro ⟨piece, hmem, rfl, hlen⟩
      exact ⟨⟨piece, hmem, rfl⟩, by simpa using hlen⟩
  · intro s
    have h : normalizeIngredients " 豚肉 , ,ONION " = ["豚肉", "onion"] := by decide
    rw [h]
    simp

/-- C6: when the normalized ingredient set is empty, the request stops with the
validation message; this holds for every store fetch and every matcher, so no
fetch result and no matching influences the outcome. -/
theorem C6_emptyQuery_aborts (genre raw : String)
    (h : normalizeIngredients raw = []) :
    (∀ matcher matcher2 fetch fetch2,
      suggestMealWith matcher fetch genre raw =
        suggestMealWith matcher2 fetch2 genre raw) ∧
    (∀ fetch, suggestMeal fetch genre raw =
      SuggestResult.emptyQueryError "食材を入力してください") := by
  constructor
  · intro matcher matcher2 fetch fetch2
    simp [suggestMealWith, h]
  · intro fetch
    simp [suggestMeal, suggestMealWith, h]

/-- Witness for C6 on an input that normalizes to the empty token list. -/
theorem C6_emptyQuery_aborts_witness :
    suggestMeal (fun _ => [sampleMain1]) "和食" " , " =
      SuggestResult.emptyQueryError "食材を入力してください" :=
  (C6_emptyQuery_aborts "和食" " , " (by decide)).2 (fun _ => [sampleMain1])

/-- C7: when the store returns no recipes for the genre, the request stops with
the no-matching-recipes message, and this holds for every matcher, so the
matcher is never invoked. -/
theorem C7_emptyPool_aborts (genre raw : String) (fetch : String → List Recipe)
    (hq : normalizeIngredients raw ≠ []) (hp : fetch genre = []) :
    suggestMeal fetch genre raw =
      SuggestResult.emptyPoolError "該当するレシピが見つかりませんでした" ∧
    ∀ matcher matcher2, suggestMealWith matcher fetch genre raw =
      suggestMealWith matcher2 fetch genre raw := by
  have hlen : (normalizeIngredients raw).length ≠ 0 := by
    simpa [List.length_eq_zero] using hq
  constructor
  · simp [suggestMeal, suggestMealWith, hlen, hp]
  · intro matcher matcher2
    simp [suggestMealWith, hlen, hp]

/-- Witness for C7 with a store that returns no recipes. -/
theorem C7_emptyPool_aborts_witness :
    suggestMeal (fun _ => []) "和食" "豚肉" =
      SuggestResult.emptyPoolError "該当するレシピが見つかりませんでした" :=
  (C7_emptyPool_aborts "和食" "豚肉" (fun _ => []) (by decide) rfl).1
